import Mathlib

/-!
Shallow embedding of the metropolis-coupled search program
(`metropolis.go`, one unnamed variant file), covering the state model
(`State`, `SetScore`, `Mutate`, `NewState`), the chain step (`chain` loop
body), and the hub (`hub`: barrier collect with terminal check, rank
exchange, resume).

Machine integers: the Go program stores `Score` and `World` as `int32`.
We model `int32` values as `Int` together with explicit wrap-around
(`wrap32`) at every arithmetic operation the Go code performs.

Randomness: `rand.Int31n(100000) - 50000` (the mutation offset) and
`rand.Float64()` (the acceptance draw, a value in the half-open interval
[0,1)) are modelled as explicit parameters `delta : Int` and `u : ℚ`.
The `Heat` array of `float64` literals is modelled by the corresponding
exact rationals; only order comparisons against the draw are ever
performed on heats, and only the heat value 0 (and the hypothetical
heat 1) feature in the properties proved below.
-/

namespace Metropolis

/-- Two's-complement wrap-around to the `int32` range `[-2^31, 2^31)`,
applied wherever the Go code performs `int32` arithmetic. -/
def wrap32 (x : Int) : Int := (x + 2 ^ 31) % 2 ^ 32 - 2 ^ 31

/-- Go struct `State { Score int32; World int32 }`. -/
structure State where
  Score : Int
  World : Int
deriving DecidableEq, Repr

/-- Go method `SetScore` (from `metropolis.go`, target parametrised:
`s.Score = target - s.World; if s.Score < 0 { s.Score *= -1 }`, with
`int32` wrap-around on both operations). -/
def SetScore (target : Int) (s : State) : State :=
  let sc := wrap32 (target - s.World)
  let sc := if sc < 0 then wrap32 (sc * -1) else sc
  { s with Score := sc }

/-- Go method `Mutate`: `s.World += delta`, with the random offset
`delta = rand.Int31n(100000) - 50000` made an explicit parameter, and
`int32` wrap-around on the addition. -/
def Mutate (delta : Int) (s : State) : State :=
  { s with World := wrap32 (s.World + delta) }

/-- Go function `NewState`: zero-valued struct, then `SetScore`. -/
def NewState (target : Int) : State :=
  SetScore target { Score := 0, World := 0 }

/-- The `Heat` ladder of `metropolis.go`, float64 literals modelled as
exact rationals. -/
def Heat : List ℚ := [0, 1/100000, 1/10000, 1/2000, 1/1000, 1/100]

/-- Loop body of Go `chain` for one round: keep a copy `old` of the
incoming state, mutate and rescore it, then revert to `old` iff the new
score is worse and the acceptance draw exceeds the chain's heat
(`if my_state.Score > old_state.Score && rand.Float64() > Heat[index]`). -/
def step (heat u : ℚ) (target delta : Int) (s : State) : State :=
  let old := s
  let cand := SetScore target (Mutate delta s)
  if cand.Score > old.Score ∧ u > heat then old else cand

/-- One iteration `n` of the hub's rank-exchange loop: compare slots `n`
and `n+1`, swap the two state values when slot `n`'s score is strictly
greater (`if state_pointers[n].Score > state_pointers[n+1].Score`). -/
def swapAt (l : List State) (n : Nat) : List State :=
  match l[n]?, l[n + 1]? with
  | some a, some b =>
      if a.Score > b.Score then (l.set n b).set (n + 1) a else l
  | _, _ => l

/-- The hub's rank-exchange pass: the Go loop
`for n := 0; n < THREADS - 1; n++` over the collected slots. -/
def hubExchange (l : List State) : List State :=
  (List.range (l.length - 1)).foldl swapAt l

/-- A single left-to-right adjacent-pair bubble pass, written as the spec
describes it (recursively: compare the first two, swap when the first
scores strictly greater, continue rightwards with the larger in hand).
Used to characterise `hubExchange`. -/
def bubblePass : List State → List State
  | [] => []
  | [a] => [a]
  | a :: b :: rest =>
    if a.Score > b.Score then b :: bubblePass (a :: rest)
    else a :: bubblePass (b :: rest)
termination_by l => l.length

/-- The hub's barrier-collect loop with terminal check, starting at slot
`n`: receive the report for each successive slot; as soon as a received
state has score 0, stop, returning the number of reports received so far
and the terminal slot and state.  Returns `(received, none)` when no
report had score 0. -/
def hubCollectAux (n : Nat) : List State → Nat × Option (Nat × State)
  | [] => (n, none)
  | s :: rest =>
    if s.Score = 0 then (n + 1, some (n, s))
    else hubCollectAux (n + 1) rest

/-- The hub's barrier-collect loop for one round
(`for n := 0; n < THREADS; n++ { state_pointers[n] = <-...; if ... Score == 0 { return } }`):
first component is how many reports were received, second the terminal
result, if any. -/
def hubCollect (reports : List State) : Nat × Option (Nat × State) :=
  hubCollectAux 0 reports

/-- The hub's outer round loop, driven by the per-round report lists:
collect a round's reports; on a terminal state return it at once
(no exchange, no resume, no further round), otherwise go on to the next
round. -/
def hubLoop : List (List State) → Option (Nat × State)
  | [] => none
  | reports :: rest =>
    match (hubCollect reports).2 with
    | some r => some r
    | none => hubLoop rest

/-- The score-is-derived invariant of the spec: the stored score is
exactly what rescoring the payload produces. -/
def ScoreInv (target : Int) (s : State) : Prop :=
  s.Score = (SetScore target s).Score

instance (target : Int) (s : State) : Decidable (ScoreInv target s) := by
  unfold ScoreInv; infer_instance

/-! ### Helper lemmas -/

theorem wrap32_lb (x : Int) : -2 ^ 31 ≤ wrap32 x := by
  have h := Int.emod_nonneg (x + 2 ^ 31) (b := 2 ^ 32) (by norm_num)
  unfold wrap32; omega

theorem wrap32_ub (x : Int) : wrap32 x < 2 ^ 31 := by
  have h := Int.emod_lt_of_pos (x + 2 ^ 31) (b := 2 ^ 32) (by norm_num)
  unfold wrap32; omega

theorem wrap32_eq_self {x : Int} (h1 : -2 ^ 31 ≤ x) (h2 : x < 2 ^ 31) :
    wrap32 x = x := by
  have h := Int.emod_eq_of_lt (a := x + 2 ^ 31) (b := 2 ^ 32) (by omega) (by omega)
  unfold wrap32; omega

theorem swapAt_cons (x : State) (l : List State) (n : Nat) :
    swapAt (x :: l) (n + 1) = x :: swapAt l n := by
  unfold swapAt
  cases h1 : l[n]? <;> cases h2 : l[n + 1]? <;>
    simp [List.getElem?_cons_succ, h1, h2, List.set_cons_succ]
  split <;> simp

theorem foldl_swapAt_shift (ns : List Nat) (x : State) (l : List State) :
    ns.foldl (fun acc k => swapAt acc (k + 1)) (x :: l) =
      x :: ns.foldl swapAt l := by
  induction ns generalizing l with
  | nil => rfl
  | cons n ns ih => simp only [List.foldl_cons, swapAt_cons, ih]

theorem hubExchange_eq_bubblePass (l : List State) :
    hubExchange l = bubblePass l := by
  induction l using bubblePass.induct with
  | case1 => simp [hubExchange, bubblePass]
  | case2 a => simp [hubExchange, bubblePass]
  | case3 a b rest hgt ih =>
    rw [bubblePass, if_pos hgt]
    rw [hubExchange] at ih ⊢
    simp only [List.length_cons, Nat.add_sub_cancel] at ih ⊢
    rw [List.range_succ_eq_map, List.foldl_cons, List.foldl_map]
    have h0 : swapAt (a :: b :: rest) 0 = b :: a :: rest := by
      simp [swapAt, hgt]
    rw [h0, foldl_swapAt_shift, ih]
  | case4 a b rest hgt ih =>
    rw [bubblePass, if_neg hgt]
    rw [hubExchange] at ih ⊢
    simp only [List.length_cons, Nat.add_sub_cancel] at ih ⊢
    rw [List.range_succ_eq_map, List.foldl_cons, List.foldl_map]
    have h0 : swapAt (a :: b :: rest) 0 = a :: b :: rest := by
      simp [swapAt, hgt]
    rw [h0, foldl_swapAt_shift, ih]

theorem bubblePass_perm (l : List State) : List.Perm (bubblePass l) l := by
  induction l using bubblePass.induct with
  | case1 => rw [bubblePass]
  | case2 a => rw [bubblePass]
  | case3 a b rest hgt ih =>
    rw [bubblePass, if_pos hgt]
    exact ((ih.cons b).trans (List.Perm.swap a b rest))
  | case4 a b rest hgt ih =>
    rw [bubblePass, if_neg hgt]
    exact ih.cons a

theorem bubblePass_length (l : List State) :
    (bubblePass l).length = l.length :=
  (bubblePass_perm l).length_eq

theorem bubblePass_sorted_eq {l : List State}
    (h : List.Sorted (fun a b : State => a.Score ≤ b.Score) l) :
    bubblePass l = l := by
  induction l using bubblePass.induct with
  | case1 => rw [bubblePass]
  | case2 a => rw [bubblePass]
  | case3 a b rest hgt ih =>
    exact absurd (List.rel_of_sorted_cons h b (by simp)) (not_le.mpr hgt)
  | case4 a b rest hgt ih =>
    rw [bubblePass, if_neg hgt, ih h.of_cons]

theorem bubblePass_last_max {l : List State} (hne : l ≠ []) :
    ∃ t, (bubblePass l).getLast? = some t ∧ ∀ s ∈ l, s.Score ≤ t.Score := by
  induction l using bubblePass.induct with
  | case1 => exact absurd rfl hne
  | case2 a =>
    refine ⟨a, by rw [bubblePass]; rfl, ?_⟩
    intro s hs
    rw [List.mem_singleton] at hs
    exact le_of_eq (congrArg State.Score hs)
  | case3 a b rest hgt ih =>
    obtain ⟨t, ht, hmax⟩ := ih (by simp)
    have hlen : bubblePass (a :: rest) ≠ [] := by
      intro hc
      have := bubblePass_length (a :: rest)
      rw [hc] at this
      simp at this
    refine ⟨t, ?_, ?_⟩
    · rw [bubblePass, if_pos hgt]
      obtain ⟨c, M, hcM⟩ := List.exists_cons_of_ne_nil hlen
      rw [hcM] at ht ⊢
      rw [List.getLast?_cons_cons, ht]
    · intro s hs
      rcases List.mem_cons.mp hs with h1 | hs
      · exact h1 ▸ hmax a (by simp)
      rcases List.mem_cons.mp hs with h2 | hs
      · calc s.Score = b.Score := congrArg State.Score h2
          _ ≤ a.Score := le_of_lt hgt
          _ ≤ t.Score := hmax a (by simp)
      · exact hmax s (by simp [hs])
  | case4 a b rest hgt ih =>
    obtain ⟨t, ht, hmax⟩ := ih (by simp)
    have hlen : bubblePass (b :: rest) ≠ [] := by
      intro hc
      have := bubblePass_length (b :: rest)
      rw [hc] at this
      simp at this
    refine ⟨t, ?_, ?_⟩
    · rw [bubblePass, if_neg hgt]
      obtain ⟨c, M, hcM⟩ := List.exists_cons_of_ne_nil hlen
      rw [hcM] at ht ⊢
      rw [List.getLast?_cons_cons, ht]
    · intro s hs
      rcases List.mem_cons.mp hs with h1 | hs
      · calc s.Score = a.Score := congrArg State.Score h1
          _ ≤ b.Score := not_lt.mp hgt
          _ ≤ t.Score := hmax b (by simp)
      rcases List.mem_cons.mp hs with h2 | hs
      · exact h2 ▸ hmax b (by simp)
      · exact hmax s (by simp [hs])

theorem SetScore_World (target : Int) (s : State) :
    (SetScore target s).World = s.World := rfl

theorem hubCollectAux_firstZero {l : List State} (k : Nat)
    (h : ∃ s ∈ l, s.Score = 0) :
    ∃ n s, l[n]? = some s ∧ s.Score = 0 ∧
      (∀ j < n, ∀ t, l[j]? = some t → t.Score ≠ 0) ∧
      hubCollectAux k l = (k + n + 1, some (k + n, s)) := by
  induction l generalizing k with
  | nil => simp at h
  | cons a rest ih =>
    by_cases ha : a.Score = 0
    · exact ⟨0, a, by simp, ha, by omega, by simp [hubCollectAux, ha]⟩
    · obtain ⟨s, hs, hs0⟩ := h
      rcases List.mem_cons.mp hs with h1 | hs
      · exact absurd (h1 ▸ hs0) ha
      obtain ⟨n, s', hget, hsc, hpre, haux⟩ := ih (k + 1) ⟨s, hs, hs0⟩
      refine ⟨n + 1, s', by simpa using hget, hsc, ?_, ?_⟩
      · intro j hj t hgt
        cases j with
        | zero =>
          have hta : a = t := by simpa using hgt
          exact hta ▸ ha
        | succ j => exact hpre j (by omega) t (by simpa using hgt)
      · rw [hubCollectAux, if_neg ha, haux]
        have hk : k + 1 + n = k + (n + 1) := by omega
        rw [hk]

theorem SetScore_inv (target : Int) (t : State) :
    ScoreInv target (SetScore target t) := rfl

/-! ### Claims -/

/-- C1, counterexample: in a round whose first report already has score 0
(followed by five nonzero reports, as with `THREADS = 6`), the hub
receives only one report, not all six: the remaining chains' reports are
NOT consumed before the run ends. -/
theorem C1_counterexample :
    (∃ s ∈ ([⟨0, 500⟩, ⟨5, 495⟩, ⟨7, 493⟩, ⟨9, 491⟩, ⟨11, 489⟩,
        ⟨13, 487⟩] : List State), s.Score = 0) ∧
    (hubCollect [⟨0, 500⟩, ⟨5, 495⟩, ⟨7, 493⟩, ⟨9, 491⟩, ⟨11, 489⟩,
        ⟨13, 487⟩]).1 ≠
      ([⟨0, 500⟩, ⟨5, 495⟩, ⟨7, 493⟩, ⟨9, 491⟩, ⟨11, 489⟩,
        ⟨13, 487⟩] : List State).length := by
  decide

/-- C1, amended: when some report of a round has score 0, the hub yields
the first such (slot, state) as the terminal result, receives exactly
`n + 1` reports (where `n` is that slot) — so later slots' reports are
not consumed when the zero is not in the last slot — and starts no
further rounds, whatever reports later rounds would have held. -/
theorem C1_terminal_round (reports : List State) (rest : List (List State))
    (h : ∃ s ∈ reports, s.Score = 0) :
    ∃ n s, reports[n]? = some s ∧ s.Score = 0 ∧
      (∀ j < n, ∀ t, reports[j]? = some t → t.Score ≠ 0) ∧
      hubCollect reports = (n + 1, some (n, s)) ∧
      n + 1 ≤ reports.length ∧
      hubLoop (reports :: rest) = some (n, s) := by
  obtain ⟨n, s, hget, hsc, hpre, haux⟩ := hubCollectAux_firstZero 0 h
  simp only [Nat.zero_add] at haux
  refine ⟨n, s, hget, hsc, hpre, haux, ?_, ?_⟩
  · by_contra hge
    rw [List.getElem?_eq_none (by omega)] at hget
    exact Option.noConfusion hget
  · rw [hubLoop, hubCollect, haux]

/-- Witness for C1: a concrete terminal round with the zero in slot 1. -/
theorem C1_terminal_round_witness :
    ∃ n s, ([⟨3, 497⟩, ⟨0, 500⟩, ⟨9, 491⟩] : List State)[n]? = some s ∧
      s.Score = 0 ∧
      (∀ j < n, ∀ t,
        ([⟨3, 497⟩, ⟨0, 500⟩, ⟨9, 491⟩] : List State)[j]? = some t →
          t.Score ≠ 0) ∧
      hubCollect [⟨3, 497⟩, ⟨0, 500⟩, ⟨9, 491⟩] = (n + 1, some (n, s)) ∧
      n + 1 ≤ ([⟨3, 497⟩, ⟨0, 500⟩, ⟨9, 491⟩] : List State).length ∧
      hubLoop ([⟨3, 497⟩, ⟨0, 500⟩, ⟨9, 491⟩] :: [[⟨1, 499⟩]]) =
        some (n, s) :=
  C1_terminal_round [⟨3, 497⟩, ⟨0, 500⟩, ⟨9, 491⟩] [[⟨1, 499⟩]] (by decide)

/-- C2, counterexample: `Heat[0] = 0`, yet with the acceptance draw
`u = 0` (a value `rand.Float64()` can return) a worsening candidate is
accepted, because the revert condition is `u > Heat[0]`, i.e. `0 > 0`,
which is false: the reported score exceeds the received score. -/
theorem C2_counterexample :
    Heat[0]? = some 0 ∧ (0 : ℚ) ≤ 0 ∧ (0 : ℚ) < 1 ∧
    (step 0 0 500 (-1) ⟨500, 0⟩).Score > (⟨500, 0⟩ : State).Score := by
  decide

/-- C2, amended: at heat 0 the reported score never exceeds the received
score for every acceptance draw `u` with `0 < u` (all draws except
exactly 0): a worsening candidate is reverted, a non-worsening one
cannot raise the score. -/
theorem C2_greedy_step (heat u : ℚ) (target delta : Int) (s : State)
    (hheat : heat = 0) (hu : 0 < u) :
    (step heat u target delta s).Score ≤ s.Score := by
  subst hheat
  simp only [step]
  by_cases h : (SetScore target (Mutate delta s)).Score > s.Score
  · rw [if_pos ⟨h, hu⟩]
  · rw [if_neg (fun hc => h hc.1)]
    exact not_lt.mp h

/-- Witness for C2: a concrete heat-0 step with a positive draw. -/
theorem C2_greedy_step_witness :
    (step 0 (1 / 2) 500 3 ⟨500, 0⟩).Score ≤ (⟨500, 0⟩ : State).Score :=
  C2_greedy_step 0 (1 / 2) 500 3 ⟨500, 0⟩ rfl (by norm_num)

/-- C3, counterexample: with target 500 and payload `500 - 2^31`
(an `int32` value), the wrapped difference is `-2^31`, whose negation
wraps back to `-2^31`: `SetScore` produces a NEGATIVE score, refuting
"the resulting score is always nonnegative" under the claim's own
32-bit wrap-around arithmetic. -/
theorem C3_counterexample :
    (SetScore 500 ⟨0, -2147483148⟩).Score = -2 ^ 31 ∧
    (SetScore 500 ⟨0, -2147483148⟩).Score < 0 := by
  decide

/-- C3, amended: `SetScore` leaves the payload unchanged and sets the
score to the 32-bit wrap-around absolute difference of target and
payload: that is `|wrap32 (target - payload)|`, nonnegative and zero
exactly on a wrapped difference of zero, in every case except when the
wrapped difference is `-2^31`, where the score is `-2^31` (negative). -/
theorem C3_SetScore_abs (target : Int) (s : State) :
    (SetScore target s).World = s.World ∧
    ((SetScore target s).Score =
      if wrap32 (target - s.World) = -2 ^ 31 then -2 ^ 31
      else |wrap32 (target - s.World)|) ∧
    (wrap32 (target - s.World) ≠ -2 ^ 31 → 0 ≤ (SetScore target s).Score) ∧
    (wrap32 (target - s.World) ≠ -2 ^ 31 →
      ((SetScore target s).Score = 0 ↔ wrap32 (target - s.World) = 0)) := by
  have hlb := wrap32_lb (target - s.World)
  have hub := wrap32_ub (target - s.World)
  have hedge : wrap32 (2 ^ 31) = -2 ^ 31 := by decide
  by_cases hneg : wrap32 (target - s.World) < 0
  · by_cases hmin : wrap32 (target - s.World) = -2 ^ 31
    · have hsc : (SetScore target s).Score = -2 ^ 31 := by
        simp only [SetScore, if_pos hneg, hmin]
        rw [show (-2 ^ 31 * -1 : Int) = 2 ^ 31 by ring, hedge]
        simp
      refine ⟨rfl, ?_, fun hc => absurd hmin hc, fun hc => absurd hmin hc⟩
      rw [hsc, if_pos hmin]
    · have hw : wrap32 (wrap32 (target - s.World) * -1) =
          -wrap32 (target - s.World) := by
        rw [show wrap32 (target - s.World) * -1 =
          -wrap32 (target - s.World) by ring]
        exact wrap32_eq_self (by omega) (by omega)
      have hsc : (SetScore target s).Score = -wrap32 (target - s.World) := by
        simp only [SetScore, if_pos hneg]
        exact hw
      refine ⟨rfl, ?_, fun _ => by omega, fun _ => by constructor <;> omega⟩
      rw [hsc, if_neg hmin, abs_of_neg hneg]
  · have hsc : (SetScore target s).Score = wrap32 (target - s.World) := by
      simp only [SetScore, if_neg hneg]
    have hmin : wrap32 (target - s.World) ≠ -2 ^ 31 := by omega
    refine ⟨rfl, ?_, fun _ => by omega, fun _ => by constructor <;> omega⟩
    rw [hsc, if_neg hmin, abs_of_nonneg (not_lt.mp hneg)]

/-- Witness for C3 (amended): evaluated at target 500, payload 600. -/
theorem C3_SetScore_abs_witness :
    (SetScore 500 ⟨0, 600⟩).World = (⟨0, 600⟩ : State).World ∧
    ((SetScore 500 ⟨0, 600⟩).Score =
      if wrap32 (500 - (⟨0, 600⟩ : State).World) = -2 ^ 31 then -2 ^ 31
      else |wrap32 (500 - (⟨0, 600⟩ : State).World)|) ∧
    (wrap32 (500 - (⟨0, 600⟩ : State).World) ≠ -2 ^ 31 →
      0 ≤ (SetScore 500 ⟨0, 600⟩).Score) ∧
    (wrap32 (500 - (⟨0, 600⟩ : State).World) ≠ -2 ^ 31 →
      ((SetScore 500 ⟨0, 600⟩).Score = 0 ↔
        wrap32 (500 - (⟨0, 600⟩ : State).World) = 0)) :=
  C3_SetScore_abs 500 ⟨0, 600⟩

/-- C4: the hub's exchange loop is exactly one left-to-right
adjacent-pair pass swapping on a strictly-greater score (it coincides
with the single recursive bubble pass `bubblePass`); scores `[5, 3, 8]`
become `[3, 5, 8]`; and one pass does not in general sort the array. -/
theorem C4_single_pass :
    (∀ l, hubExchange l = bubblePass l) ∧
    hubExchange [⟨5, 50⟩, ⟨3, 30⟩, ⟨8, 80⟩] =
      [⟨3, 30⟩, ⟨5, 50⟩, ⟨8, 80⟩] ∧
    ∃ l, ¬ List.Sorted (fun a b : State => a.Score ≤ b.Score)
      (hubExchange l) :=
  ⟨hubExchange_eq_bubblePass, by decide,
    ⟨[⟨3, 0⟩, ⟨2, 0⟩, ⟨1, 0⟩], by decide⟩⟩

/-- Witness for C4: the pass equality evaluated on a concrete list. -/
theorem C4_single_pass_witness :
    hubExchange [⟨2, 0⟩, ⟨1, 0⟩] = bubblePass [⟨2, 0⟩, ⟨1, 0⟩] :=
  C4_single_pass.1 [⟨2, 0⟩, ⟨1, 0⟩]

/-- C5: one exchange pass permutes its input: the output is a
permutation of the input list, equivalently the multisets of states
(payload together with score) agree. -/
theorem C5_exchange_perm (l : List State) :
    List.Perm (hubExchange l) l ∧
    (↑(hubExchange l) : Multiset State) = (↑l : Multiset State) := by
  have h : List.Perm (hubExchange l) l := by
    rw [hubExchange_eq_bubblePass]
    exact bubblePass_perm l
  exact ⟨h, Quot.sound h⟩

/-- Witness for C5 at a concrete list. -/
theorem C5_exchange_perm_witness :
    List.Perm (hubExchange [⟨5, 50⟩, ⟨3, 30⟩]) [⟨5, 50⟩, ⟨3, 30⟩] ∧
    (↑(hubExchange [⟨5, 50⟩, ⟨3, 30⟩]) : Multiset State) =
      (↑([⟨5, 50⟩, ⟨3, 30⟩] : List State) : Multiset State) :=
  C5_exchange_perm [⟨5, 50⟩, ⟨3, 30⟩]

/-- C6: an array already sorted by score in non-decreasing order
(equal scores included: the comparison is strict) is left unchanged by
the exchange pass. -/
theorem C6_sorted_fixed (l : List State)
    (h : List.Sorted (fun a b : State => a.Score ≤ b.Score) l) :
    hubExchange l = l := by
  rw [hubExchange_eq_bubblePass]
  exact bubblePass_sorted_eq h

/-- Witness for C6: a sorted list with a duplicated score is fixed. -/
theorem C6_sorted_fixed_witness :
    hubExchange [⟨1, 10⟩, ⟨1, 20⟩, ⟨2, 30⟩] =
      [⟨1, 10⟩, ⟨1, 20⟩, ⟨2, 30⟩] :=
  C6_sorted_fixed [⟨1, 10⟩, ⟨1, 20⟩, ⟨2, 30⟩] (by decide)

/-- C7: at heat 1 the step always reports the mutated, rescored
candidate, for every acceptance draw in `[0, 1)` (the range of
`rand.Float64()`), however bad the candidate's score: the revert
condition `u > 1` never holds. -/
theorem C7_heat_one_accepts (u : ℚ) (target delta : Int) (s : State)
    (_h0 : 0 ≤ u) (h1 : u < 1) :
    step 1 u target delta s = SetScore target (Mutate delta s) := by
  simp only [step]
  rw [if_neg]
  rintro ⟨-, hu⟩
  linarith

/-- Witness for C7: a concrete worsening mutation is still accepted. -/
theorem C7_heat_one_accepts_witness :
    step 1 (1 / 2) 500 (-1) ⟨500, 0⟩ =
      SetScore 500 (Mutate (-1) ⟨500, 0⟩) :=
  C7_heat_one_accepts (1 / 2) 500 (-1) ⟨500, 0⟩ (by norm_num) (by norm_num)

/-- C8: when the candidate scores strictly worse than the incoming state
and the draw exceeds the heat, the step reports the incoming state
itself — payload and score exactly the pre-mutation values — and in
every case the step's output is either the mutated-and-rescored
candidate or that exact copy. -/
theorem C8_reject_reverts (heat u : ℚ) (target delta : Int) (s : State) :
    ((SetScore target (Mutate delta s)).Score > s.Score → u > heat →
      step heat u target delta s = s) ∧
    (step heat u target delta s = SetScore target (Mutate delta s) ∨
      step heat u target delta s = s) := by
  constructor
  · intro hworse hroll
    simp only [step]
    rw [if_pos ⟨hworse, hroll⟩]
  · simp only [step]
    by_cases h : (SetScore target (Mutate delta s)).Score > s.Score ∧ u > heat
    · rw [if_pos h]; exact Or.inr rfl
    · rw [if_neg h]; exact Or.inl rfl

/-- Witness for C8: a concrete rejected step reports the input state. -/
theorem C8_reject_reverts_witness :
    step 0 (1 / 2) 500 (-1) ⟨500, 0⟩ = (⟨500, 0⟩ : State) :=
  (C8_reject_reverts 0 (1 / 2) 500 (-1) ⟨500, 0⟩).1 (by decide) (by norm_num)

/-- C9: each state-producing operation preserves the score-is-derived
invariant `score = scoring_function(payload)`: the initial state has it,
a step's output has it whenever its input does (both on accept and on
revert), and every state coming out of an exchange pass has it when
every state going in does. -/
theorem C9_score_invariant (heat u : ℚ) (target delta : Int) (s : State)
    (l : List State) (hs : ScoreInv target s)
    (hl : ∀ x ∈ l, ScoreInv target x) :
    ScoreInv target (NewState target) ∧
    ScoreInv target (step heat u target delta s) ∧
    (∀ x ∈ hubExchange l, ScoreInv target x) := by
  refine ⟨SetScore_inv target _, ?_, ?_⟩
  · simp only [step]
    by_cases h : (SetScore target (Mutate delta s)).Score > s.Score ∧ u > heat
    · rw [if_pos h]; exact hs
    · rw [if_neg h]; exact SetScore_inv target _
  · intro x hx
    rw [hubExchange_eq_bubblePass] at hx
    exact hl x ((bubblePass_perm l).mem_iff.mp hx)

/-- Witness for C9, at a concrete step and a concrete two-state round. -/
theorem C9_score_invariant_witness :
    ScoreInv 500 (NewState 500) ∧
    ScoreInv 500 (step 0 (1 / 2) 500 3 ⟨500, 0⟩) ∧
    (∀ x ∈ hubExchange [⟨500, 0⟩, ⟨100, 600⟩], ScoreInv 500 x) :=
  C9_score_invariant 0 (1 / 2) 500 3 ⟨500, 0⟩ [⟨500, 0⟩, ⟨100, 600⟩]
    (by decide) (by decide)

/-- C10: after one exchange pass over a nonempty array, the state in the
last slot scores maximally among all the collected states. -/
theorem C10_last_max (l : List State) (hne : l ≠ []) :
    ∃ t, (hubExchange l).getLast? = some t ∧
      ∀ s ∈ l, s.Score ≤ t.Score := by
  rw [hubExchange_eq_bubblePass]
  exact bubblePass_last_max hne

/-- Witness for C10 on a concrete three-state array. -/
theorem C10_last_max_witness :
    ∃ t, (hubExchange [⟨5, 50⟩, ⟨3, 30⟩, ⟨8, 80⟩]).getLast? = some t ∧
      ∀ s ∈ ([⟨5, 50⟩, ⟨3, 30⟩, ⟨8, 80⟩] : List State),
        s.Score ≤ t.Score :=
  C10_last_max [⟨5, 50⟩, ⟨3, 30⟩, ⟨8, 80⟩] (by decide)

end Metropolis
